import Mathlib

/-
Verification of the progress-tracking and session-bookkeeping engine of the
interview-coach repository (src/service.py, src/models.py).

Strings are modelled as `List Char`, Python floats as `ℚ` (the score algebra
of the engine is the exact arithmetic `(p + r) / 2`, and all constants are
decimal), Python dicts as insertion-ordered association lists with the usual
replace-on-assign semantics, and `datetime` values as a record of calendar
fields.  The external OpenAI oracle is modelled by passing its parsed,
well-formed structured output as an argument, exactly as the code consumes it
after `json.loads`.
-/

/- Named characters (so that no character literal appears outside brackets). -/

def chDash : Char := Char.ofNat 45

def chColon : Char := Char.ofNat 58

def chDot : Char := Char.ofNat 46

def chT : Char := Char.ofNat 84

def chUnderscore : Char := Char.ofNat 95

def chNewline : Char := Char.ofNat 10

def chApostrophe : Char := Char.ofNat 39

def strChars (s : String) : List Char := s.toList

/- Decimal digits: rendering (Python's zero-padded `%02d`/`%04d`/`%06d` used
by `datetime.isoformat`) and reading (the digit-group parsing done by
`datetime.fromisoformat`). -/

def digitToChar (n : Nat) : Char := Char.ofNat (48 + n)

def charToDigit (c : Char) : Nat := c.toNat - 48

def isDig (c : Char) : Bool := decide (48 ≤ c.toNat) && decide (c.toNat ≤ 57)

/-- Zero-padded decimal rendering of `n` on exactly `w` digits. -/
def padChars : Nat → Nat → List Char
  | 0, _ => []
  | w + 1, n => padChars w (n / 10) ++ [digitToChar (n % 10)]

def readDigits (cs : List Char) : Nat :=
  cs.foldl (fun a c => a * 10 + charToDigit c) 0

theorem charToDigit_digitToChar (n : Nat) (h : n < 10) :
    charToDigit (digitToChar n) = n := by
  interval_cases n <;> decide

theorem isDig_digitToChar (n : Nat) (h : n < 10) : isDig (digitToChar n) = true := by
  interval_cases n <;> decide

theorem length_padChars (w n : Nat) : (padChars w n).length = w := by
  induction w generalizing n with
  | zero => rfl
  | succ w ih => simp [padChars, ih]

theorem all_isDig_padChars (w n : Nat) : (padChars w n).all isDig = true := by
  induction w generalizing n with
  | zero => rfl
  | succ w ih =>
    simp only [padChars, List.all_append, ih, Bool.true_and, List.all_cons,
      List.all_nil, Bool.and_true]
    exact isDig_digitToChar _ (Nat.mod_lt _ (by omega))

theorem foldl_padChars (w : Nat) : ∀ (n a : Nat),
    (padChars w n).foldl (fun a c => a * 10 + charToDigit c) a = a * 10 ^ w + n % 10 ^ w := by
  induction w with
  | zero => intro n a; simp [padChars, Nat.mod_one]
  | succ w ih =>
    intro n a
    have h10 : n % 10 < 10 := Nat.mod_lt _ (by omega)
    rw [padChars, List.foldl_append, ih (n / 10) a]
    simp only [List.foldl_cons, List.foldl_nil, charToDigit_digitToChar _ h10]
    have hm : n % 10 ^ (w + 1) = n % 10 + 10 * (n / 10 % 10 ^ w) := by
      rw [pow_succ']
      exact Nat.mod_mul
    rw [hm, pow_succ]
    ring

theorem readDigits_padChars (w n : Nat) (h : n < 10 ^ w) :
    readDigits (padChars w n) = n := by
  rw [readDigits, foldl_padChars, Nat.zero_mul, Nat.zero_add, Nat.mod_eq_of_lt h]

/- A Python `datetime.datetime` value restricted to the fields the engine
uses.  The values the engine creates come from `datetime.now()`, which is
timezone-naive, so no UTC-offset field is modelled. -/

structure PyDatetime where
  year : Nat
  month : Nat
  day : Nat
  hour : Nat
  minute : Nat
  second : Nat
  microsecond : Nat
deriving DecidableEq

/-- Field bounds guaranteed by the `datetime` constructor (the day bound is
relaxed from days-in-month to 31, which only widens the proved statement). -/
def PyDatetime.Valid (d : PyDatetime) : Prop :=
  1 ≤ d.year ∧ d.year ≤ 9999 ∧ 1 ≤ d.month ∧ d.month ≤ 12 ∧ 1 ≤ d.day ∧ d.day ≤ 31 ∧
    d.hour ≤ 23 ∧ d.minute ≤ 59 ∧ d.second ≤ 59 ∧ d.microsecond ≤ 999999

instance (d : PyDatetime) : Decidable d.Valid := by
  unfold PyDatetime.Valid; infer_instance

/-- Model of `datetime.isoformat()` on a naive datetime, as invoked by
`InterviewService._serialize_datetime`: `YYYY-MM-DDTHH:MM:SS` followed by
`.ffffff` exactly when the microsecond field is nonzero. -/
def isoformatChars (d : PyDatetime) : List Char :=
  padChars 4 d.year ++ [chDash] ++ padChars 2 d.month ++ [chDash] ++ padChars 2 d.day ++
    [chT] ++ padChars 2 d.hour ++ [chColon] ++ padChars 2 d.minute ++ [chColon] ++
    padChars 2 d.second ++
    (if d.microsecond = 0 then [] else [chDot] ++ padChars 6 d.microsecond)

/-- Reads a fixed-width decimal digit group, failing on short input or a
non-digit character. -/
def parseFixed (w : Nat) (cs : List Char) : Option (Nat × List Char) :=
  if (cs.take w).length = w ∧ (cs.take w).all isDig = true then
    some (readDigits (cs.take w), cs.drop w)
  else none

def expectChar (c : Char) (cs : List Char) : Option (List Char) :=
  match cs with
  | [] => none
  | c' :: rest => if c' = c then some rest else none

/-- Reads the optional fractional-seconds tail: either end of input
(microsecond `0`) or a dot followed by exactly six digits and end of input. -/
def parseMicroTail (rest : List Char) : Option Nat :=
  match rest with
  | [] => some 0
  | c :: cs =>
    if c = chDot then
      (parseFixed 6 cs).bind fun p => if p.2 = [] then some p.1 else none
    else none

/-- Model of `datetime.fromisoformat` on the strings produced by
`isoformatChars` (separator `T`, naive, seconds always present, fractional
part of six digits present or absent), as invoked by
`InterviewService._deserialize_datetime`. -/
def fromisoformatChars (cs0 : List Char) : Option PyDatetime :=
  (parseFixed 4 cs0).bind fun p1 =>
  (expectChar chDash p1.2).bind fun cs1 =>
  (parseFixed 2 cs1).bind fun p2 =>
  (expectChar chDash p2.2).bind fun cs2 =>
  (parseFixed 2 cs2).bind fun p3 =>
  (expectChar chT p3.2).bind fun cs3 =>
  (parseFixed 2 cs3).bind fun p4 =>
  (expectChar chColon p4.2).bind fun cs4 =>
  (parseFixed 2 cs4).bind fun p5 =>
  (expectChar chColon p5.2).bind fun cs5 =>
  (parseFixed 2 cs5).bind fun p6 =>
  (parseMicroTail p6.2).bind fun us =>
  some ⟨p1.1, p2.1, p3.1, p4.1, p5.1, p6.1, us⟩

theorem parseFixed_padChars (w n : Nat) (rest : List Char) (h : n < 10 ^ w) :
    parseFixed w (padChars w n ++ rest) = some (n, rest) := by
  have ht : (padChars w n ++ rest).take w = padChars w n := by
    have := List.take_left (padChars w n) rest
    rwa [length_padChars] at this
  have hd : (padChars w n ++ rest).drop w = rest := by
    have := List.drop_left (padChars w n) rest
    rwa [length_padChars] at this
  rw [parseFixed, ht, hd, if_pos ⟨length_padChars w n, all_isDig_padChars w n⟩,
    readDigits_padChars w n h]

theorem expectChar_cons (c : Char) (rest : List Char) :
    expectChar c (c :: rest) = some rest := by
  simp [expectChar]

theorem fromisoformat_isoformat (d : PyDatetime) (h : d.Valid) :
    fromisoformatChars (isoformatChars d) = some d := by
  obtain ⟨year, month, day, hour, minute, second, us⟩ := d
  obtain ⟨h1, h2, h3, h4, h5, h6, h7, h8, h9, h10⟩ := h
  simp only at h1 h2 h3 h4 h5 h6 h7 h8 h9 h10
  have py : ∀ rest, parseFixed 4 (padChars 4 year ++ rest) = some (year, rest) :=
    fun rest => parseFixed_padChars _ _ _ (by norm_num; omega)
  have pmo : ∀ rest, parseFixed 2 (padChars 2 month ++ rest) = some (month, rest) :=
    fun rest => parseFixed_padChars _ _ _ (by norm_num; omega)
  have pdy : ∀ rest, parseFixed 2 (padChars 2 day ++ rest) = some (day, rest) :=
    fun rest => parseFixed_padChars _ _ _ (by norm_num; omega)
  have phr : ∀ rest, parseFixed 2 (padChars 2 hour ++ rest) = some (hour, rest) :=
    fun rest => parseFixed_padChars _ _ _ (by norm_num; omega)
  have pmi : ∀ rest, parseFixed 2 (padChars 2 minute ++ rest) = some (minute, rest) :=
    fun rest => parseFixed_padChars _ _ _ (by norm_num; omega)
  have psc : ∀ rest, parseFixed 2 (padChars 2 second ++ rest) = some (second, rest) :=
    fun rest => parseFixed_padChars _ _ _ (by norm_num; omega)
  have psc0 : parseFixed 2 (padChars 2 second) = some (second, []) := by
    have := psc []
    simpa using this
  have pus0 : parseFixed 6 (padChars 6 us) = some (us, []) := by
    have := parseFixed_padChars 6 us [] (by norm_num; omega)
    simpa using this
  by_cases hz : us = 0
  · subst hz
    simp only [isoformatChars, fromisoformatChars, parseMicroTail, if_pos rfl, if_true,
      ite_true, eq_self_iff_true, List.append_assoc, List.cons_append,
      List.singleton_append, List.append_nil, List.nil_append, py, pmo, pdy, phr, pmi,
      psc0, expectChar_cons, Option.some_bind]
  · simp only [isoformatChars, fromisoformatChars, parseMicroTail, if_neg hz,
      List.append_assoc, List.cons_append, List.singleton_append, List.nil_append, py, pmo, pdy, phr,
      pmi, psc, pus0, expectChar_cons, Option.some_bind, if_pos rfl, if_true, ite_true,
      eq_self_iff_true]

/- Data model (src/models.py).  Pydantic models become plain records; all
string fields are `List Char`, float fields are `ℚ`, and the
`subtopic_scores: dict[str, float]` field is an insertion-ordered association
list, matching a Python dict. -/

structure Question where
  question_text : List Char
  correct_answer : List Char
  explanation : List Char
  difficulty : List Char
  topic : List Char
  subtopic : List Char
deriving DecidableEq

structure InterviewSession where
  topic : List Char
  timestamp : PyDatetime
  questions_asked : Nat
  correct_answers : Nat
  difficulty_level : List Char
  language : List Char
  areas_for_improvement : List (List Char)
  mastered_subtopics : List (List Char)
deriving DecidableEq

structure UserProgress where
  topic : List Char
  skill_level : List Char
  confidence_score : ℚ
  last_session : Option PyDatetime
  language : List Char
  recommended_topics : List (List Char)
  mastered_subtopics : List (List Char)
  subtopic_scores : List (List Char × ℚ)
deriving DecidableEq

/- Python dict operations on string keys, as insertion-ordered association
lists.  `dictInsert` is `d[k] = v`: it replaces the value in place when the
key is present (a Python dict holds each key at most once) and appends a new
entry otherwise.  `dictGet` is `d.get(k)` / `k in d`. -/

def dictGet {α : Type} (k : List Char) : List (List Char × α) → Option α
  | [] => none
  | kv :: rest => if kv.1 = k then some kv.2 else dictGet k rest

def dictInsert {α : Type} (k : List Char) (v : α) : List (List Char × α) → List (List Char × α)
  | [] => [(k, v)]
  | kv :: rest => if kv.1 = k then (k, v) :: rest else kv :: dictInsert k v rest

theorem dictGet_dictInsert_self {α : Type} (k : List Char) (v : α)
    (m : List (List Char × α)) : dictGet k (dictInsert k v m) = some v := by
  induction m with
  | nil => simp [dictInsert, dictGet]
  | cons kv rest ih =>
    by_cases h : kv.1 = k
    · simp [dictInsert, dictGet, h]
    · simp [dictInsert, dictGet, h, ih]

theorem dictGet_dictInsert_ne {α : Type} (k k' : List Char) (v : α)
    (m : List (List Char × α)) (h : k' ≠ k) :
    dictGet k' (dictInsert k v m) = dictGet k' m := by
  have hkk : ¬k = k' := fun he => h he.symm
  induction m with
  | nil => simp [dictInsert, dictGet, hkk]
  | cons kv rest ih =>
    by_cases hk : kv.1 = k
    · have hne : ¬kv.1 = k' := fun he => h (he ▸ hk)
      rw [dictInsert, if_pos hk, dictGet, if_neg hkk, dictGet, if_neg hne]
    · rw [dictInsert, if_neg hk]
      by_cases hk' : kv.1 = k'
      · rw [dictGet, if_pos hk', dictGet, if_pos hk']
      · rw [dictGet, if_neg hk', dictGet, if_neg hk', ih]

theorem mem_dictInsert {α : Type} (k : List Char) (v : α)
    (m : List (List Char × α)) (x : List Char × α) (hx : x ∈ dictInsert k v m) :
    x ∈ m ∨ x = (k, v) := by
  induction m with
  | nil => simpa [dictInsert] using hx
  | cons kv rest ih =>
    by_cases h : kv.1 = k
    · rw [dictInsert, if_pos h] at hx
      rcases List.mem_cons.1 hx with h1 | h1
      · exact Or.inr h1
      · exact Or.inl (List.mem_cons_of_mem _ h1)
    · rw [dictInsert, if_neg h] at hx
      rcases List.mem_cons.1 hx with h1 | h1
      · exact Or.inl (h1 ▸ List.mem_cons_self _ _)
      · rcases ih h1 with h2 | h2
        · exact Or.inl (List.mem_cons_of_mem _ h2)
        · exact Or.inr h2

theorem self_mem_dictInsert {α : Type} (k : List Char) (v : α)
    (m : List (List Char × α)) : (k, v) ∈ dictInsert k v m := by
  induction m with
  | nil => simp [dictInsert]
  | cons kv rest ih =>
    by_cases h : kv.1 = k
    · simp [dictInsert, h]
    · simp only [dictInsert, if_neg h]
      exact List.mem_cons_of_mem _ ih

theorem dictGet_mem {α : Type} (k : List Char) (v : α) (m : List (List Char × α))
    (h : dictGet k m = some v) : (k, v) ∈ m := by
  induction m with
  | nil => simp [dictGet] at h
  | cons kv rest ih =>
    by_cases hk : kv.1 = k
    · rw [dictGet, if_pos hk, Option.some_inj] at h
      rw [List.mem_cons]
      exact Or.inl (Prod.ext hk h).symm
    · rw [dictGet, if_neg hk] at h
      exact List.mem_cons_of_mem _ (ih h)

theorem keys_dictInsert {α : Type} (k : List Char) (v : α)
    (m : List (List Char × α)) :
    (dictInsert k v m).map Prod.fst =
      if k ∈ m.map Prod.fst then m.map Prod.fst else m.map Prod.fst ++ [k] := by
  induction m with
  | nil =>
    rw [dictInsert, List.map_cons, List.map_nil, if_neg (List.not_mem_nil k),
      List.nil_append]
  | cons kv rest ih =>
    by_cases h : kv.1 = k
    · have hc : k ∈ (kv :: rest).map Prod.fst := by
        rw [List.map_cons, h]
        exact List.mem_cons_self _ _
      rw [dictInsert, if_pos h, if_pos hc, List.map_cons, List.map_cons, h]
    · rw [dictInsert, if_neg h, List.map_cons, List.map_cons, ih]
      by_cases h2 : k ∈ rest.map Prod.fst
      · rw [if_pos h2, if_pos (List.mem_cons_of_mem _ h2)]
      · rw [if_neg h2, if_neg ?_, List.cons_append]
        rw [List.mem_cons]
        rintro (he | he)
        · exact h he.symm
        · exact h2 he

theorem keys_nodup_dictInsert {α : Type} (k : List Char) (v : α)
    (m : List (List Char × α)) (h : (m.map Prod.fst).Nodup) :
    ((dictInsert k v m).map Prod.fst).Nodup := by
  rw [keys_dictInsert]
  by_cases hm : k ∈ m.map Prod.fst
  · rwa [if_pos hm]
  · rw [if_neg hm]
    exact List.Nodup.append h (List.nodup_singleton k)
      (fun a ha hb => hm ((List.mem_singleton.1 hb) ▸ ha))

theorem key_mem_dictInsert {α : Type} (k : List Char) (v : α)
    (m : List (List Char × α)) : k ∈ (dictInsert k v m).map Prod.fst := by
  rw [keys_dictInsert]
  by_cases hm : k ∈ m.map Prod.fst
  · rwa [if_pos hm]
  · rw [if_neg hm]
    exact List.mem_append_right _ (List.mem_singleton_self k)

/- The in-memory history state held by `InterviewService.history` and
persisted by `_save_history`: an append-only session list and a progress
dict keyed by the string built from topic and language. -/

structure HistoryState where
  sessions : List InterviewSession
  progress : List (List Char × UserProgress)
deriving DecidableEq

/-- Empty history, as produced by `_load_history` when the file is absent. -/
def emptyHistory : HistoryState := { sessions := [], progress := [] }

/-- The progress key string built by the f-string in `update_progress` and
`get_topic_progress`: topic, an underscore, then language. -/
def progressKey (topic language : List Char) : List Char :=
  topic ++ [chUnderscore] ++ language

/-- Model of `InterviewService.update_progress` (service.py lines 180-183):
stores the record under the key derived from the record's own topic and
language fields, replacing any prior record under that key. -/
def update_progress (h : HistoryState) (progress : UserProgress) : HistoryState :=
  { h with progress :=
      dictInsert (progressKey progress.topic progress.language) progress h.progress }

/-- Model of `InterviewService.get_topic_progress` (service.py lines
185-189): looks up the key derived from the given topic and language and
returns the stored record, or nothing. -/
def get_topic_progress (h : HistoryState) (topic language : List Char) :
    Option UserProgress :=
  dictGet (progressKey topic language) h.progress

/-- Model of `InterviewService.save_session` (service.py lines 175-178):
appends the session record at the end of the sessions list. -/
def save_session (h : HistoryState) (session : InterviewSession) : HistoryState :=
  { h with sessions := h.sessions ++ [session] }

/-- The read-modify-write that `InterviewService.evaluate_answer` performs
on the fetched progress record (service.py lines 120-128): averages the
prior subtopic score (default `0.0`) with the oracle's raw score, stores the
average, and appends the subtopic to `mastered_subtopics` when the average
reaches the 0.85 threshold and the subtopic is not already present. -/
def updatedRecord (progress : UserProgress) (question : Question)
    (subtopic_score : ℚ) : UserProgress :=
  let subtopic := question.subtopic
  let current_score := (dictGet subtopic progress.subtopic_scores).getD 0
  let new_score := (current_score + subtopic_score) / 2
  { progress with
    subtopic_scores := dictInsert subtopic new_score progress.subtopic_scores,
    mastered_subtopics :=
      if (0.85 : ℚ) ≤ new_score then
        (if subtopic ∈ progress.mastered_subtopics then progress.mastered_subtopics
         else progress.mastered_subtopics ++ [subtopic])
      else progress.mastered_subtopics }

/-- Model of the state effect of `InterviewService.evaluate_answer`
(service.py lines 115-131).  The oracle's reply is consumed only through its
parsed `subtopic_score` field, passed here as `subtopic_score`.  When no
progress record exists for the question's (topic, language) key the guard
`if progress:` skips the whole update and the history is left unchanged. -/
def evaluate_answer (h : HistoryState) (question : Question)
    (language : List Char) (subtopic_score : ℚ) : HistoryState :=
  match get_topic_progress h question.topic language with
  | none => h
  | some progress => update_progress h (updatedRecord progress question subtopic_score)

/-- The parsed analysis payload expected from the oracle by
`analyze_performance`: `skill_level`, `confidence_score`,
`recommended_topics` (service.py line 158). -/
structure OracleAnalysis where
  skill_level : List Char
  confidence_score : ℚ
  recommended_topics : List (List Char)
deriving DecidableEq

/-- Model of `InterviewService.analyze_performance` (service.py lines
134-173): fetches the existing record for (topic, language); carries its
`mastered_subtopics` and `subtopic_scores` forward unchanged (empty when no
record exists); fills the oracle-derived fields from the parsed analysis and
sets `last_session` to the current time.  The session argument only feeds
the oracle prompt, never the returned record. -/
def analyze_performance (h : HistoryState) (topic : List Char)
    (session_data : InterviewSession) (language : List Char) (now : PyDatetime)
    (analysis : OracleAnalysis) : UserProgress :=
  let existing_progress := get_topic_progress h topic language
  let mastered_subtopics := match existing_progress with
    | some p => p.mastered_subtopics
    | none => []
  let subtopic_scores := match existing_progress with
    | some p => p.subtopic_scores
    | none => []
  { topic := topic
    skill_level := analysis.skill_level
    confidence_score := analysis.confidence_score
    last_session := some now
    language := language
    recommended_topics := analysis.recommended_topics
    mastered_subtopics := mastered_subtopics
    subtopic_scores := subtopic_scores }

/- The persisted JSON shape before `_deserialize_datetime` runs: timestamps
are still ISO-8601 text (`last_session` may also be JSON null). -/

structure RawSession where
  topic : List Char
  timestamp : List Char
  questions_asked : Nat
  correct_answers : Nat
  difficulty_level : List Char
  language : List Char
  areas_for_improvement : List (List Char)
  mastered_subtopics : List (List Char)
deriving DecidableEq

structure RawProgress where
  topic : List Char
  skill_level : List Char
  confidence_score : ℚ
  last_session : Option (List Char)
  language : List Char
  recommended_topics : List (List Char)
  mastered_subtopics : List (List Char)
  subtopic_scores : List (List Char × ℚ)
deriving DecidableEq

structure RawHistory where
  sessions : List RawSession
  progress : List (List Char × RawProgress)
deriving DecidableEq

/-- Failures that can escape `_load_history`: errors raised by `open` other
than `FileNotFoundError` (e.g. `PermissionError`), `json.load` failures on
corrupt content, and `ValueError` from `datetime.fromisoformat` inside
`_deserialize_datetime`.  Only `FileNotFoundError` is caught. -/
inductive ReadError where
  | permissionError
  | jsonDecodeError
  | valueError
deriving DecidableEq

/-- Outcome of `open` plus `json.load` on the history file. -/
inductive ReadResult where
  | fileAbsent
  | readOk (data : RawHistory)
  | readFail (e : ReadError)
deriving DecidableEq

def deserializeSession (s : RawSession) : Except ReadError InterviewSession :=
  match fromisoformatChars s.timestamp with
  | some d =>
    .ok { topic := s.topic
          timestamp := d
          questions_asked := s.questions_asked
          correct_answers := s.correct_answers
          difficulty_level := s.difficulty_level
          language := s.language
          areas_for_improvement := s.areas_for_improvement
          mastered_subtopics := s.mastered_subtopics }
  | none => .error .valueError

def rawProgressFields (p : RawProgress) (ls : Option PyDatetime) : UserProgress :=
  { topic := p.topic
    skill_level := p.skill_level
    confidence_score := p.confidence_score
    last_session := ls
    language := p.language
    recommended_topics := p.recommended_topics
    mastered_subtopics := p.mastered_subtopics
    subtopic_scores := p.subtopic_scores }

def deserializeProgress (p : RawProgress) : Except ReadError UserProgress :=
  match p.last_session with
  | none => .ok (rawProgressFields p none)
  | some cs =>
    match fromisoformatChars cs with
    | some d => .ok (rawProgressFields p (some d))
    | none => .error .valueError

/-- Model of `_deserialize_datetime` applied to the parsed JSON document:
parses every session timestamp and every non-null `last_session`. -/
def deserializeHistory (r : RawHistory) : Except ReadError HistoryState := do
  let sessions ← r.sessions.mapM deserializeSession
  let progress ← r.progress.mapM (fun kp => do
    let p ← deserializeProgress kp.2
    pure (kp.1, p))
  pure { sessions := sessions, progress := progress }

/-- Model of `InterviewService._load_history` (service.py lines 34-40): the
`try` block reads and deserializes; only `FileNotFoundError` is caught and
turned into the empty state; every other failure propagates. -/
def load_history : ReadResult → Except ReadError HistoryState
  | .fileAbsent => .ok emptyHistory
  | .readOk data => deserializeHistory data
  | .readFail e => .error e

/- Prompt construction for `InterviewService.generate_question` (service.py
lines 46-84).  The oracle call itself is external; what the engine
guarantees is the content of the prompt string it sends, modelled here
verbatim as the concatenation the f-string performs. -/

/-- Model of `InterviewService._get_language_prompt` (service.py line 15). -/
def get_language_prompt (language : List Char) : List Char :=
  if language = strChars (r"RU") then strChars (r"Answer in Russian language.")
  else strChars (r"Answer in English language.")

/-- The block listing mastered subtopics (service.py lines 50-55): empty
when there is no progress record or no mastered subtopic, otherwise a header
plus one dashed line per mastered subtopic. -/
def masteredSubtopicsText (progress : Option UserProgress) : List Char :=
  match progress with
  | none => []
  | some p =>
    if p.mastered_subtopics ≠ [] then
      strChars (r"
Mastered subtopics (avoid these):
") ++ (p.mastered_subtopics.map (fun s => strChars (r"- ") ++ s ++ [chNewline])).flatten
    else []

def natChars (n : Nat) : List Char := (Nat.repr n).toList

/-- The numbered entries built by the `enumerate(previous_questions, 1)`
loop (service.py lines 61-62): each entry shows the question text, its topic
and its subtopic. -/
def prevQuestionLines : Nat → List Question → List Char
  | _, [] => []
  | i, q :: qs =>
    natChars i ++ strChars (r". Question: ") ++ q.question_text ++ [chNewline] ++
      strChars (r"   Topic: ") ++ q.topic ++ [chNewline] ++
      strChars (r"   Subtopic: ") ++ q.subtopic ++ [chNewline] ++
      prevQuestionLines (i + 1) qs

/-- The block listing previously asked questions (service.py lines 58-62):
empty when the list is empty (or `None` in Python, identified with the empty
list here), otherwise a header plus the numbered entries starting at 1. -/
def previousQuestionsText (previous_questions : List Question) : List Char :=
  if previous_questions ≠ [] then
    strChars (r"
Previous questions in this session:
") ++ prevQuestionLines 1 previous_questions
  else []

def promptSeg1 : List Char := strChars (r"
        Generate an interview question for a Data Scientist position with the following criteria:
        Topic: ")

def promptSeg2 : List Char := strChars (r"
        Difficulty: ")

def promptSeg3 : List Char := strChars (r"
        
        ")

def promptSeg4 : List Char := strChars (r"
        ")

def promptSeg5 : List Char :=
  strChars (r"
        Important requirements:
        1. The question must be significantly different from any previous questions shown above
        2. If previous questions covered certain subtopics, focus on different subtopics
        3. DO NOT generate questions about mastered subtopics listed above
        4. The question should be unique in both content and the specific skills it tests
        5. Choose a subtopic that the student hasn") ++ [chApostrophe] ++ strChars (r"t mastered yet
        
        Format the response as a JSON with the following fields:
        - question_text
        - correct_answer
        - explanation
        - difficulty
        - topic
        - subtopic")

/-- The full prompt string assembled by `generate_question` (service.py
lines 64-84) before it is sent to the oracle. -/
def generateQuestionPrompt (h : HistoryState) (topic difficulty language : List Char)
    (previous_questions : List Question) : List Char :=
  get_language_prompt language ++ promptSeg1 ++ topic ++ promptSeg2 ++ difficulty ++
    promptSeg3 ++ masteredSubtopicsText (get_topic_progress h topic language) ++
    promptSeg4 ++ previousQuestionsText previous_questions ++ promptSeg5

/- Invariants of program-reachable history states. -/

/-- Every stored progress entry sits under the key derived from its own
topic and language fields — maintained because `update_progress` always
stores a record under its own derived key. -/
def Coherent (h : HistoryState) : Prop :=
  ∀ kp ∈ h.progress, kp.1 = progressKey kp.2.topic kp.2.language

/-- Every stored record's `mastered_subtopics` list is duplicate-free. -/
def MasteredNodup (h : HistoryState) : Prop :=
  ∀ kp ∈ h.progress, kp.2.mastered_subtopics.Nodup

/-- Every stored subtopic score lies in the unit interval. -/
def ScoresInRange (h : HistoryState) : Prop :=
  ∀ kp ∈ h.progress, ∀ sv ∈ kp.2.subtopic_scores, 0 ≤ sv.2 ∧ sv.2 ≤ 1

instance (h : HistoryState) : Decidable (Coherent h) := by
  unfold Coherent; infer_instance

instance (h : HistoryState) : Decidable (MasteredNodup h) := by
  unfold MasteredNodup; infer_instance

instance (h : HistoryState) : Decidable (ScoresInRange h) := by
  unfold ScoresInRange; infer_instance

/-- The mastered-subtopic list currently stored for a (topic, language)
key, the empty list when no record exists. -/
def masteredSet (h : HistoryState) (topic language : List Char) : List (List Char) :=
  match get_topic_progress h topic language with
  | some p => p.mastered_subtopics
  | none => []

/-- One graded answer: the question it answered, the session language, and
the oracle's raw subtopic score. -/
structure AnswerEvent where
  q : Question
  language : List Char
  rawScore : ℚ
deriving DecidableEq

/-- A sequence of graded answers applied through `evaluate_answer`. -/
def applyEvents (h : HistoryState) (events : List AnswerEvent) : HistoryState :=
  events.foldl (fun h e => evaluate_answer h e.q e.language e.rawScore) h

/- Substring helpers (`List.IsInfix`, written `<:+:`). -/

theorem isInfixAppendLeft {x a : List Char} (b : List Char) (h : x <:+: a) :
    x <:+: a ++ b := by
  obtain ⟨s, t, rfl⟩ := h
  exact ⟨s, t ++ b, by simp⟩

theorem isInfixAppendDropLeft {x b : List Char} (a : List Char) (h : x <:+: b) :
    x <:+: a ++ b := by
  obtain ⟨s, t, rfl⟩ := h
  exact ⟨a ++ s, t, by simp⟩

theorem isInfixMiddle (a x b : List Char) : x <:+: a ++ x ++ b :=
  ⟨a, b, by simp⟩

theorem mem_isInfixFlatten {s : List (List Char)} {x : List Char} (hx : x ∈ s)
    (pre post : List Char) :
    x <:+: (s.map (fun y => pre ++ y ++ post)).flatten := by
  induction s with
  | nil => cases hx
  | cons y ys ih =>
    rw [List.map_cons, List.flatten_cons]
    rcases List.mem_cons.1 hx with h1 | h1
    · subst h1
      exact isInfixAppendLeft _ (isInfixMiddle pre x post)
    · exact isInfixAppendDropLeft _ (ih h1)

/- Step lemmas about `evaluate_answer` and `update_progress`. -/

theorem evaluate_answer_of_none {h : HistoryState} {q : Question} {lang : List Char}
    (r : ℚ) (hp : get_topic_progress h q.topic lang = none) :
    evaluate_answer h q lang r = h := by
  unfold evaluate_answer
  rw [hp]

theorem evaluate_answer_of_some {h : HistoryState} {q : Question} {lang : List Char}
    {p : UserProgress} (r : ℚ) (hp : get_topic_progress h q.topic lang = some p) :
    evaluate_answer h q lang r = update_progress h (updatedRecord p q r) := by
  unfold evaluate_answer
  rw [hp]

theorem get_topic_progress_update (h : HistoryState) (rec : UserProgress)
    (t l : List Char) :
    get_topic_progress (update_progress h rec) t l =
      if progressKey t l = progressKey rec.topic rec.language then some rec
      else get_topic_progress h t l := by
  unfold get_topic_progress update_progress
  by_cases hk : progressKey t l = progressKey rec.topic rec.language
  · rw [if_pos hk, hk, dictGet_dictInsert_self]
  · rw [if_neg hk, dictGet_dictInsert_ne _ _ _ _ hk]

theorem updatedRecord_topic (p : UserProgress) (q : Question) (r : ℚ) :
    (updatedRecord p q r).topic = p.topic := rfl

theorem updatedRecord_language (p : UserProgress) (q : Question) (r : ℚ) :
    (updatedRecord p q r).language = p.language := rfl

theorem updatedRecord_mastered_sup (p : UserProgress) (q : Question) (r : ℚ)
    (s : List Char) (hs : s ∈ p.mastered_subtopics) :
    s ∈ (updatedRecord p q r).mastered_subtopics := by
  simp only [updatedRecord]
  split
  · split
    · exact hs
    · exact List.mem_append_left _ hs
  · exact hs

theorem updatedRecord_mastered_nodup (p : UserProgress) (q : Question) (r : ℚ)
    (hnd : p.mastered_subtopics.Nodup) :
    (updatedRecord p q r).mastered_subtopics.Nodup := by
  simp only [updatedRecord]
  split
  · split
    · exact hnd
    · next hmem =>
      exact List.Nodup.append hnd (List.nodup_singleton _)
        (fun a ha hb => hmem ((List.mem_singleton.1 hb) ▸ ha))
  · exact hnd

theorem updatedRecord_mastered_adds (p : UserProgress) (q : Question) (r : ℚ)
    (hth : (0.85 : ℚ) ≤ ((dictGet q.subtopic p.subtopic_scores).getD 0 + r) / 2) :
    q.subtopic ∈ (updatedRecord p q r).mastered_subtopics := by
  simp only [updatedRecord]
  rw [if_pos hth]
  split
  · next hmem => exact hmem
  · exact List.mem_append_right _ (List.mem_singleton_self _)

theorem coherent_key {h : HistoryState} {t l : List Char} {p : UserProgress}
    (hcoh : Coherent h) (hp : get_topic_progress h t l = some p) :
    progressKey t l = progressKey p.topic p.language :=
  hcoh _ (dictGet_mem _ _ _ hp)

theorem evaluate_answer_coherent {h : HistoryState} (q : Question)
    (lang : List Char) (r : ℚ) (hcoh : Coherent h) :
    Coherent (evaluate_answer h q lang r) := by
  cases hp : get_topic_progress h q.topic lang with
  | none => rw [evaluate_answer_of_none r hp]; exact hcoh
  | some p =>
    rw [evaluate_answer_of_some r hp]
    intro kp hkp
    rcases mem_dictInsert _ _ _ _ hkp with hin | heq
    · exact hcoh _ hin
    · rw [heq]

theorem evaluate_answer_masteredNodup {h : HistoryState} (q : Question)
    (lang : List Char) (r : ℚ) (hm : MasteredNodup h) :
    MasteredNodup (evaluate_answer h q lang r) := by
  cases hp : get_topic_progress h q.topic lang with
  | none => rw [evaluate_answer_of_none r hp]; exact hm
  | some p =>
    rw [evaluate_answer_of_some r hp]
    intro kp hkp
    rcases mem_dictInsert _ _ _ _ hkp with hin | heq
    · exact hm _ hin
    · rw [heq]
      exact updatedRecord_mastered_nodup _ _ _ (hm _ (dictGet_mem _ _ _ hp))

theorem evaluate_answer_masteredSet_mono {h : HistoryState} (q : Question)
    (lang : List Char) (r : ℚ) (hcoh : Coherent h) (t l s : List Char)
    (hs : s ∈ masteredSet h t l) :
    s ∈ masteredSet (evaluate_answer h q lang r) t l := by
  cases hp : get_topic_progress h q.topic lang with
  | none => rw [evaluate_answer_of_none r hp]; exact hs
  | some p =>
    have hkey := coherent_key hcoh hp
    rw [evaluate_answer_of_some r hp]
    unfold masteredSet at hs ⊢
    rw [get_topic_progress_update]
    by_cases hk : progressKey t l =
        progressKey (updatedRecord p q r).topic (updatedRecord p q r).language
    · rw [if_pos hk]
      rw [updatedRecord_topic, updatedRecord_language] at hk
      have hgt : get_topic_progress h t l = some p := by
        unfold get_topic_progress at hp ⊢
        rw [show progressKey t l = progressKey q.topic lang from hk.trans hkey.symm]
        exact hp
      rw [hgt] at hs
      exact updatedRecord_mastered_sup _ _ _ _ hs
    · rw [if_neg hk]
      exact hs

theorem evaluate_answer_adds_mastered {h : HistoryState} {q : Question}
    {lang : List Char} {p : UserProgress} (r : ℚ) (hcoh : Coherent h)
    (hp : get_topic_progress h q.topic lang = some p)
    (hth : (0.85 : ℚ) ≤ ((dictGet q.subtopic p.subtopic_scores).getD 0 + r) / 2) :
    q.subtopic ∈ masteredSet (evaluate_answer h q lang r) q.topic lang := by
  have hkey := coherent_key hcoh hp
  rw [evaluate_answer_of_some r hp]
  unfold masteredSet
  rw [get_topic_progress_update,
    if_pos (by rw [updatedRecord_topic, updatedRecord_language]; exact hkey)]
  exact updatedRecord_mastered_adds _ _ _ hth

theorem applyEvents_coherent (events : List AnswerEvent) :
    ∀ h : HistoryState, Coherent h → Coherent (applyEvents h events) := by
  induction events with
  | nil => exact fun h hc => hc
  | cons e evs ih =>
    intro h hc
    exact ih _ (evaluate_answer_coherent _ _ _ hc)

theorem applyEvents_masteredNodup (events : List AnswerEvent) :
    ∀ h : HistoryState, MasteredNodup h → MasteredNodup (applyEvents h events) := by
  induction events with
  | nil => exact fun h hm => hm
  | cons e evs ih =>
    intro h hm
    exact ih _ (evaluate_answer_masteredNodup _ _ _ hm)

theorem applyEvents_masteredSet_mono (events : List AnswerEvent) :
    ∀ h : HistoryState, Coherent h → ∀ t l s, s ∈ masteredSet h t l →
      s ∈ masteredSet (applyEvents h events) t l := by
  induction events with
  | nil => exact fun h _ t l s hs => hs
  | cons e evs ih =>
    intro h hc t l s hs
    exact ih _ (evaluate_answer_coherent _ _ _ hc) t l s
      (evaluate_answer_masteredSet_mono _ _ _ hc t l s hs)

/- Encoding and decoding of the optional `last_session` field
(`model_dump` + `_serialize_datetime` on save, `_deserialize_datetime` on
load): None becomes JSON null and stays None; a datetime becomes ISO text
and is parsed back (outer Option is the parse outcome). -/

def encodeLastSession (od : Option PyDatetime) : Option (List Char) :=
  od.map isoformatChars

def decodeLastSession : Option (List Char) → Option (Option PyDatetime)
  | none => some none
  | some cs => (fromisoformatChars cs).map some

/- Sequences of `save_session` calls. -/

def applySessions (h : HistoryState) (ss : List InterviewSession) : HistoryState :=
  ss.foldl save_session h

theorem applySessions_sessions (ss : List InterviewSession) :
    ∀ h : HistoryState, (applySessions h ss).sessions = h.sessions ++ ss := by
  induction ss with
  | nil => intro h; simp [applySessions]
  | cons s rest ih =>
    intro h
    show (applySessions (save_session h s) rest).sessions = _
    rw [ih, save_session]
    simp

theorem applySessions_progress (ss : List InterviewSession) :
    ∀ h : HistoryState, (applySessions h ss).progress = h.progress := by
  induction ss with
  | nil => intro h; rfl
  | cons s rest ih =>
    intro h
    show (applySessions (save_session h s) rest).progress = _
    rw [ih, save_session]

/- Concrete fixtures used by witnesses and counterexamples. -/

def langEN : List Char := strChars (r"EN")

def qDecorators : Question :=
  { question_text := strChars (r"What are decorators in Python?")
    correct_answer := strChars (r"Functions that modify other functions")
    explanation := strChars (r"Decorators wrap callables")
    difficulty := strChars (r"Intermediate")
    topic := strChars (r"Python")
    subtopic := strChars (r"Decorators") }

def pPython : UserProgress :=
  { topic := strChars (r"Python")
    skill_level := strChars (r"Intermediate")
    confidence_score := 1
    last_session := none
    language := langEN
    recommended_topics := []
    mastered_subtopics := [strChars (r"Basics")]
    subtopic_scores := [(strChars (r"Decorators"), 1)] }

def hPython : HistoryState :=
  { sessions := []
    progress := [(progressKey (strChars (r"Python")) langEN, pPython)] }

def pW2 : UserProgress :=
  { pPython with skill_level := strChars (r"Advanced"), confidence_score := 0 }

def dWitness : PyDatetime :=
  { year := 2024, month := 3, day := 7, hour := 15, minute := 42, second := 10,
    microsecond := 123456 }

def sessWitness : InterviewSession :=
  { topic := strChars (r"Python")
    timestamp := dWitness
    questions_asked := 5
    correct_answers := 3
    difficulty_level := strChars (r"Intermediate")
    language := langEN
    areas_for_improvement := [strChars (r"Generators")]
    mastered_subtopics := [] }

def analysisWitness : OracleAnalysis :=
  { skill_level := strChars (r"Advanced")
    confidence_score := 1
    recommended_topics := [strChars (r"SQL")] }

/-- C5: timestamp encoding round-trips exactly: decoding the ISO-8601 text
written by `_serialize_datetime` (for an `InterviewSession` timestamp, and
for a `UserProgress` `last_session` whether absent or present) yields the
same structured timestamp value. -/
theorem timestamp_roundtrip (d : PyDatetime) (h : d.Valid) :
    fromisoformatChars (isoformatChars d) = some d ∧
    decodeLastSession (encodeLastSession none) = some none ∧
    decodeLastSession (encodeLastSession (some d)) = some (some d) := by
  refine ⟨fromisoformat_isoformat d h, rfl, ?_⟩
  show (fromisoformatChars (isoformatChars d)).map some = some (some d)
  rw [fromisoformat_isoformat d h]
  rfl

theorem timestamp_roundtrip_witness :
    fromisoformatChars (isoformatChars dWitness) = some dWitness ∧
    decodeLastSession (encodeLastSession none) = some none ∧
    decodeLastSession (encodeLastSession (some dWitness)) = some (some dWitness) :=
  timestamp_roundtrip dWitness (by decide)

/-- C6: `_load_history` returns the empty state when the file is absent
(`FileNotFoundError` is the only caught exception); any other read failure
propagates as an error, and readable content goes through
`_deserialize_datetime`, whose own failures also propagate. -/
theorem load_history_absent_vs_failure :
    load_history ReadResult.fileAbsent = Except.ok emptyHistory ∧
    (∀ e : ReadError, load_history (ReadResult.readFail e) = Except.error e) ∧
    (∀ raw : RawHistory, load_history (ReadResult.readOk raw) = deserializeHistory raw) :=
  ⟨rfl, fun _ => rfl, fun _ => rfl⟩

theorem filter_key_of_not_mem {α : Type} (k : List Char) (m : List (List Char × α))
    (hk : k ∉ m.map Prod.fst) :
    m.filter (fun kv => decide (kv.1 = k)) = [] := by
  induction m with
  | nil => rfl
  | cons kv rest ih =>
    rw [List.map_cons, List.mem_cons] at hk
    push_neg at hk
    rw [List.filter_cons]
    simp only [decide_eq_true_eq]
    rw [if_neg (fun he => hk.1 he.symm)]
    exact ih hk.2

theorem filter_key_dictInsert {α : Type} (k : List Char) (v : α)
    (m : List (List Char × α)) (hnd : (m.map Prod.fst).Nodup) :
    ((dictInsert k v m).filter (fun kv => decide (kv.1 = k))).length = 1 := by
  induction m with
  | nil =>
    rw [dictInsert, List.filter_cons]
    simp only [decide_eq_true_eq, eq_self_iff_true, if_true]
    rfl
  | cons kv rest ih =>
    rw [List.map_cons, List.nodup_cons] at hnd
    by_cases h : kv.1 = k
    · rw [dictInsert, if_pos h, List.filter_cons]
      simp only [decide_eq_true_eq, eq_self_iff_true, if_true]
      rw [filter_key_of_not_mem k rest (h ▸ hnd.1)]
      rfl
    · rw [dictInsert, if_neg h, List.filter_cons]
      simp only [decide_eq_true_eq]
      rw [if_neg h]
      exact ih hnd.2

/-- C7: `update_progress` upserts by the (topic, language) key: after two
successive writes of records sharing topic and language, the store holds
exactly one entry for that key, the second write created no new entry, and
`get_topic_progress` returns the latest record. -/
theorem update_progress_upserts (h : HistoryState) (p₁ p₂ : UserProgress)
    (ht : p₁.topic = p₂.topic) (hl : p₁.language = p₂.language)
    (hnd : (h.progress.map Prod.fst).Nodup) :
    (((update_progress (update_progress h p₁) p₂).progress.filter
        (fun kv => decide (kv.1 = progressKey p₂.topic p₂.language))).length = 1) ∧
    ((update_progress (update_progress h p₁) p₂).progress.map Prod.fst =
        (update_progress h p₁).progress.map Prod.fst) ∧
    get_topic_progress (update_progress (update_progress h p₁) p₂) p₂.topic p₂.language
      = some p₂ := by
  refine ⟨?_, ?_, ?_⟩
  · exact filter_key_dictInsert _ _ _ (keys_nodup_dictInsert _ _ _ hnd)
  · show (dictInsert (progressKey p₂.topic p₂.language) p₂
        (update_progress h p₁).progress).map Prod.fst = _
    rw [keys_dictInsert, if_pos]
    show progressKey p₂.topic p₂.language ∈
      (dictInsert (progressKey p₁.topic p₁.language) p₁ h.progress).map Prod.fst
    rw [← ht, ← hl]
    exact key_mem_dictInsert _ _ _
  · show dictGet (progressKey p₂.topic p₂.language)
      (dictInsert (progressKey p₂.topic p₂.language) p₂ _) = some p₂
    exact dictGet_dictInsert_self _ _ _

theorem update_progress_upserts_witness :
    (((update_progress (update_progress hPython pPython) pW2).progress.filter
        (fun kv => decide (kv.1 = progressKey pW2.topic pW2.language))).length = 1) ∧
    ((update_progress (update_progress hPython pPython) pW2).progress.map Prod.fst =
        (update_progress hPython pPython).progress.map Prod.fst) ∧
    get_topic_progress (update_progress (update_progress hPython pPython) pW2)
      pW2.topic pW2.language = some pW2 :=
  update_progress_upserts hPython pPython pW2 rfl rfl (by decide)

/-- C8: the sessions list is append-only: N successive `save_session` calls
extend the stored list by exactly the N records in call order, leave every
previously stored session in place, and touch nothing else. -/
theorem save_session_append_only (h : HistoryState) (ss : List InterviewSession) :
    (applySessions h ss).sessions = h.sessions ++ ss ∧
    (applySessions h ss).sessions.length = h.sessions.length + ss.length ∧
    (applySessions h ss).progress = h.progress := by
  refine ⟨applySessions_sessions ss h, ?_, applySessions_progress ss h⟩
  rw [applySessions_sessions ss h, List.length_append]

/-- C3: `analyze_performance` returns a record whose `mastered_subtopics`
and `subtopic_scores` are exactly those of the existing progress record,
for every oracle analysis output, session and clock value. -/
theorem analyze_performance_preserves_mastery (h : HistoryState) (topic : List Char)
    (sess : InterviewSession) (lang : List Char) (now : PyDatetime)
    (analysis : OracleAnalysis) (p : UserProgress)
    (hp : get_topic_progress h topic lang = some p) :
    (analyze_performance h topic sess lang now analysis).mastered_subtopics =
      p.mastered_subtopics ∧
    (analyze_performance h topic sess lang now analysis).subtopic_scores =
      p.subtopic_scores := by
  unfold analyze_performance
  rw [hp]
  exact ⟨rfl, rfl⟩

theorem analyze_performance_preserves_mastery_witness :
    (analyze_performance hPython (strChars (r"Python")) sessWitness langEN dWitness
        analysisWitness).mastered_subtopics = pPython.mastered_subtopics ∧
    (analyze_performance hPython (strChars (r"Python")) sessWitness langEN dWitness
        analysisWitness).subtopic_scores = pPython.subtopic_scores :=
  analyze_performance_preserves_mastery hPython (strChars (r"Python")) sessWitness
    langEN dWitness analysisWitness pPython (by decide)

/-- C1 (amended): when a progress record exists for the question's (topic,
language) key, `evaluate_answer` stores exactly `(p + r) / 2` for the
question's subtopic, where `p` is the prior stored score for that subtopic
(0.0 when the subtopic is absent from the record); when no record exists for
the key, the `if progress:` guard skips the update and nothing is written. -/
theorem evaluate_answer_score_update (h : HistoryState) (q : Question)
    (lang : List Char) (r : ℚ) :
    (get_topic_progress h q.topic lang = none → evaluate_answer h q lang r = h) ∧
    (∀ p : UserProgress, get_topic_progress h q.topic lang = some p →
      p.topic = q.topic → p.language = lang →
      ∃ p' : UserProgress,
        get_topic_progress (evaluate_answer h q lang r) q.topic lang = some p' ∧
        dictGet q.subtopic p'.subtopic_scores =
          some (((dictGet q.subtopic p.subtopic_scores).getD 0 + r) / 2)) := by
  constructor
  · intro hp
    exact evaluate_answer_of_none r hp
  · intro p hp ht hl
    refine ⟨updatedRecord p q r, ?_, ?_⟩
    · rw [evaluate_answer_of_some r hp, get_topic_progress_update,
        if_pos (by rw [updatedRecord_topic, updatedRecord_language, ht, hl])]
    · show dictGet q.subtopic (dictInsert q.subtopic
        (((dictGet q.subtopic p.subtopic_scores).getD 0 + r) / 2)
        p.subtopic_scores) = _
      rw [dictGet_dictInsert_self]

theorem evaluate_answer_score_update_witness :
    ∃ p' : UserProgress,
      get_topic_progress (evaluate_answer hPython qDecorators langEN 1)
        qDecorators.topic langEN = some p' ∧
      dictGet qDecorators.subtopic p'.subtopic_scores =
        some (((dictGet qDecorators.subtopic pPython.subtopic_scores).getD 0 + 1) / 2) :=
  (evaluate_answer_score_update hPython qDecorators langEN 1).2 pPython
    (by decide) (by decide) (by decide)

/-- C1 counterexample: starting from no prior record, `evaluate_answer`
writes nothing at all — the history is unchanged and no score `r / 2` is
stored — refuting the claim that the first recorded score equals `r / 2`
and is written to the store. -/
theorem evaluate_answer_no_record_counterexample :
    evaluate_answer emptyHistory qDecorators langEN 1 = emptyHistory ∧
    get_topic_progress (evaluate_answer emptyHistory qDecorators langEN 1)
      (strChars (r"Python")) langEN = none :=
  ⟨rfl, rfl⟩

/-- C2 (amended): the score-update step performs no validation or clamping;
it never errors, and it preserves the unit-interval invariant exactly when
the oracle's raw score itself lies in `[0, 1]`: under that assumption every
stored subtopic score stays in `[0, 1]`. -/
theorem evaluate_answer_scores_stay_in_range (h : HistoryState) (q : Question)
    (lang : List Char) (r : ℚ) (hr0 : 0 ≤ r) (hr1 : r ≤ 1)
    (hs : ScoresInRange h) : ScoresInRange (evaluate_answer h q lang r) := by
  cases hp : get_topic_progress h q.topic lang with
  | none =>
    rw [evaluate_answer_of_none r hp]
    exact hs
  | some p =>
    rw [evaluate_answer_of_some r hp]
    intro kp hkp sv hsv
    rcases mem_dictInsert _ _ _ _ hkp with hin | heq
    · exact hs kp hin sv hsv
    · have hpr := hs _ (dictGet_mem _ _ _ hp)
      rw [heq] at hsv
      have hsv' : sv ∈ dictInsert q.subtopic
          (((dictGet q.subtopic p.subtopic_scores).getD 0 + r) / 2)
          p.subtopic_scores := hsv
      rcases mem_dictInsert _ _ _ _ hsv' with h2 | h2
      · exact hpr sv h2
      · have hc : 0 ≤ (dictGet q.subtopic p.subtopic_scores).getD 0 ∧
            (dictGet q.subtopic p.subtopic_scores).getD 0 ≤ 1 := by
          cases hg : dictGet q.subtopic p.subtopic_scores with
          | none => simp
          | some v =>
            have := hpr _ (dictGet_mem _ _ _ hg)
            simpa using this
        rw [h2]
        constructor
        · show 0 ≤ ((dictGet q.subtopic p.subtopic_scores).getD 0 + r) / 2
          linarith [hc.1]
        · show ((dictGet q.subtopic p.subtopic_scores).getD 0 + r) / 2 ≤ 1
          linarith [hc.2]

theorem evaluate_answer_scores_stay_in_range_witness :
    ScoresInRange (evaluate_answer hPython qDecorators langEN 1) :=
  evaluate_answer_scores_stay_in_range hPython qDecorators langEN 1
    (by decide) (by decide) (by decide)

/-- C2 counterexample: no clamping exists.  From a state whose stored scores
all lie in `[0, 1]`, an oracle score of `2.0` drives the stored score for
the subtopic to `(1 + 2) / 2 = 1.5`, outside `[0, 1]`, refuting the claim
that the update validates or clamps the oracle value. -/
theorem evaluate_answer_out_of_range_counterexample :
    ScoresInRange hPython ∧
    ¬ ScoresInRange (evaluate_answer hPython qDecorators langEN 2) := by
  constructor
  · decide
  · intro hall
    have hstep : evaluate_answer hPython qDecorators langEN 2 =
        update_progress hPython (updatedRecord pPython qDecorators 2) :=
      evaluate_answer_of_some 2 (by decide)
    have hmem : (progressKey (updatedRecord pPython qDecorators 2).topic
          (updatedRecord pPython qDecorators 2).language,
          updatedRecord pPython qDecorators 2)
        ∈ (evaluate_answer hPython qDecorators langEN 2).progress := by
      rw [hstep]
      exact self_mem_dictInsert _ _ _
    have hsc : (qDecorators.subtopic,
          ((dictGet qDecorators.subtopic pPython.subtopic_scores).getD 0 + 2) / 2)
        ∈ (updatedRecord pPython qDecorators 2).subtopic_scores :=
      self_mem_dictInsert _ _ _
    have hle := (hall _ hmem _ hsc).2
    have hg : (dictGet qDecorators.subtopic pPython.subtopic_scores).getD 0 = 1 := by
      decide
    rw [hg] at hle
    norm_num at hle

/-- C4: over any sequence of graded answers applied through
`evaluate_answer` to a coherent history with duplicate-free mastered lists,
every mastered list stays duplicate-free, membership in a record's
`mastered_subtopics` is never lost (monotone even when later averages fall
below 0.85), and a single step whose averaged score reaches 0.85 puts the
question's subtopic into the stored mastered list. -/
theorem mastery_monotone_and_nodup (h : HistoryState) (events : List AnswerEvent)
    (hcoh : Coherent h) (hm : MasteredNodup h) :
    MasteredNodup (applyEvents h events) ∧
    (∀ t l s : List Char, s ∈ masteredSet h t l →
      s ∈ masteredSet (applyEvents h events) t l) ∧
    (∀ (q : Question) (lang : List Char) (r : ℚ) (p : UserProgress),
      get_topic_progress h q.topic lang = some p →
      (0.85 : ℚ) ≤ ((dictGet q.subtopic p.subtopic_scores).getD 0 + r) / 2 →
      q.subtopic ∈ masteredSet (evaluate_answer h q lang r) q.topic lang) :=
  ⟨applyEvents_masteredNodup events h hm,
   fun t l s hs => applyEvents_masteredSet_mono events h hcoh t l s hs,
   fun _ _ r _ hp hth => evaluate_answer_adds_mastered r hcoh hp hth⟩

theorem mastery_monotone_and_nodup_witness :
    strChars (r"Basics") ∈ masteredSet
      (applyEvents hPython [⟨qDecorators, langEN, 0⟩, ⟨qDecorators, langEN, 0⟩])
      (strChars (r"Python")) langEN :=
  (mastery_monotone_and_nodup hPython
      [⟨qDecorators, langEN, 0⟩, ⟨qDecorators, langEN, 0⟩]
      (by decide) (by decide)).2.1
    (strChars (r"Python")) langEN (strChars (r"Basics")) (by decide)

/- Substring lemmas for the prompt pieces. -/

theorem mem_prevQuestionLines (q : Question) (qs : List Question) (hq : q ∈ qs) :
    ∀ i : Nat,
      q.question_text <:+: prevQuestionLines i qs ∧
      q.topic <:+: prevQuestionLines i qs ∧
      q.subtopic <:+: prevQuestionLines i qs := by
  induction qs with
  | nil => cases hq
  | cons q0 qs ih =>
    intro i
    rcases List.mem_cons.1 hq with h1 | h1
    · subst h1
      refine ⟨⟨natChars i ++ strChars (r". Question: "),
          [chNewline] ++ strChars (r"   Topic: ") ++ q.topic ++ [chNewline] ++
            strChars (r"   Subtopic: ") ++ q.subtopic ++ [chNewline] ++
            prevQuestionLines (i + 1) qs, ?_⟩,
        ⟨natChars i ++ strChars (r". Question: ") ++ q.question_text ++ [chNewline] ++
            strChars (r"   Topic: "),
          [chNewline] ++ strChars (r"   Subtopic: ") ++ q.subtopic ++ [chNewline] ++
            prevQuestionLines (i + 1) qs, ?_⟩,
        ⟨natChars i ++ strChars (r". Question: ") ++ q.question_text ++ [chNewline] ++
            strChars (r"   Topic: ") ++ q.topic ++ [chNewline] ++
            strChars (r"   Subtopic: "),
          [chNewline] ++ prevQuestionLines (i + 1) qs, ?_⟩⟩
      · rw [prevQuestionLines]
        simp [List.append_assoc]
      · rw [prevQuestionLines]
        simp [List.append_assoc]
      · rw [prevQuestionLines]
        simp [List.append_assoc]
    · have h3 := ih h1 (i + 1)
      rw [prevQuestionLines]
      exact ⟨isInfixAppendDropLeft _ h3.1, isInfixAppendDropLeft _ h3.2.1,
        isInfixAppendDropLeft _ h3.2.2⟩

theorem mem_masteredSubtopicsText (p : UserProgress) (s : List Char)
    (hs : s ∈ p.mastered_subtopics) :
    s <:+: masteredSubtopicsText (some p) := by
  have hne : p.mastered_subtopics ≠ [] := by
    intro he
    rw [he] at hs
    cases hs
  rw [masteredSubtopicsText, if_pos hne]
  exact isInfixAppendDropLeft _ (mem_isInfixFlatten hs _ _)

/-- C9: the prompt built by `generate_question` contains, whenever a
progress record exists for the (topic, language) key, every subtopic of that
record's `mastered_subtopics`, and, for every question in the supplied
previous-questions list, that question's text, topic and subtopic. -/
theorem generate_question_prompt_mentions (h : HistoryState)
    (topic difficulty language : List Char) (prevs : List Question) :
    (∀ p : UserProgress, get_topic_progress h topic language = some p →
      ∀ s ∈ p.mastered_subtopics,
        s <:+: generateQuestionPrompt h topic difficulty language prevs) ∧
    (∀ q ∈ prevs,
      q.question_text <:+: generateQuestionPrompt h topic difficulty language prevs ∧
      q.topic <:+: generateQuestionPrompt h topic difficulty language prevs ∧
      q.subtopic <:+: generateQuestionPrompt h topic difficulty language prevs) := by
  have hmt : masteredSubtopicsText (get_topic_progress h topic language) <:+:
      generateQuestionPrompt h topic difficulty language prevs := by
    refine ⟨get_language_prompt language ++ promptSeg1 ++ topic ++ promptSeg2 ++
      difficulty ++ promptSeg3, promptSeg4 ++ previousQuestionsText prevs ++
      promptSeg5, ?_⟩
    simp [generateQuestionPrompt, List.append_assoc]
  have hpt : previousQuestionsText prevs <:+:
      generateQuestionPrompt h topic difficulty language prevs := by
    refine ⟨get_language_prompt language ++ promptSeg1 ++ topic ++ promptSeg2 ++
      difficulty ++ promptSeg3 ++
      masteredSubtopicsText (get_topic_progress h topic language) ++ promptSeg4,
      promptSeg5, ?_⟩
    simp [generateQuestionPrompt, List.append_assoc]
  constructor
  · intro p hp s hs
    rw [hp] at hmt
    exact (mem_masteredSubtopicsText p s hs).trans hmt
  · intro q hq
    have hne : prevs ≠ [] := by
      intro he
      rw [he] at hq
      cases hq
    have h3 := mem_prevQuestionLines q prevs hq 1
    have hlines : prevQuestionLines 1 prevs <:+: previousQuestionsText prevs := by
      rw [previousQuestionsText, if_pos hne]
      exact isInfixAppendDropLeft _ List.infix_rfl
    exact ⟨((h3.1.trans hlines).trans hpt), ((h3.2.1.trans hlines).trans hpt),
      ((h3.2.2.trans hlines).trans hpt)⟩

theorem generate_question_prompt_mentions_witness :
    strChars (r"Basics") <:+: generateQuestionPrompt hPython (strChars (r"Python"))
      (strChars (r"Intermediate")) langEN [qDecorators] :=
  (generate_question_prompt_mentions hPython (strChars (r"Python"))
      (strChars (r"Intermediate")) langEN [qDecorators]).1 pPython
    (by decide) (strChars (r"Basics")) (by decide)

/- Fixtures for the key-collision claim. -/

def pColl1 : UserProgress :=
  { topic := strChars (r"A_B")
    skill_level := strChars (r"Beginner")
    confidence_score := 0
    last_session := none
    language := strChars (r"C")
    recommended_topics := []
    mastered_subtopics := []
    subtopic_scores := [] }

def pColl2 : UserProgress :=
  { pColl1 with topic := strChars (r"A"), language := strChars (r"B_C") }

/-- C10: the string key `topic ++ "_" ++ language` is not injective: the
distinct pairs ("A_B", "C") and ("A", "B_C") share the key "A_B_C", so a
record stored for the first pair is returned by `get_topic_progress` for
the second, and a later write for the second pair overwrites the first,
leaving a single stored entry. -/
theorem progress_key_not_injective :
    progressKey (strChars (r"A_B")) (strChars (r"C")) =
      progressKey (strChars (r"A")) (strChars (r"B_C")) ∧
    (strChars (r"A_B"), strChars (r"C")) ≠ (strChars (r"A"), strChars (r"B_C")) ∧
    get_topic_progress (update_progress emptyHistory pColl1)
      (strChars (r"A")) (strChars (r"B_C")) = some pColl1 ∧
    get_topic_progress (update_progress (update_progress emptyHistory pColl1) pColl2)
      (strChars (r"A_B")) (strChars (r"C")) = some pColl2 ∧
    (update_progress (update_progress emptyHistory pColl1) pColl2).progress.length
      = 1 := by
  refine ⟨by decide, by decide, by decide, by decide, by decide⟩
